import Mathlib

/-!
Shallow embedding of the 2D Ising Metropolis simulation in
`Codigo/Simulacion.py`, together with proofs of the specified
properties of its core functions.

Modelling conventions:
* The lattice is a total function `ℤ → ℤ → ℤ`; only the cells with both
  coordinates in `[0, L)` are ever read by the simulation functions.
* The source's global `long_lado` (lattice side) and `J` (coupling) are
  explicit parameters `L : ℕ` and `J : ℚ`.
* Energies and magnetizations are exact rationals; the inverse
  temperature `beta` and the uniform acceptance draw `p` are reals, and
  the Metropolis test compares against `Real.exp`.
* Randomness is passed in explicitly: `cambio_espin` receives the drawn
  cell `(pos_x, pos_y)` and the acceptance draw `p`; drivers receive
  streams of such draws.
* numpy writes `array[i] = v` are fallible (`Option`): an index outside
  `[-len, len)` is an error (`none`); a negative index in range writes
  position `len + i`, following numpy semantics.
-/

namespace Ising

/-- Boundary wrap used by `pos_vecinos`: an index equal to `-1` becomes
`L - 1`, and an index equal to `L` becomes `0`; all others unchanged. -/
def wrap (L : ℕ) (x : ℤ) : ℤ :=
  if x = -1 then (L : ℤ) - 1 else if x = (L : ℤ) then 0 else x

/-- Function `pos_vecinos(i, j)`: the wrapped indices `(i-1, i+1, j-1, j+1)`. -/
def pos_vecinos (L : ℕ) (i j : ℤ) : ℤ × ℤ × ℤ × ℤ :=
  (wrap L (i - 1), wrap L (i + 1), wrap L (j - 1), wrap L (j + 1))

/-- Function `var_termo(s)`: total energy and mean magnetization of lattice `s`.
For every cell, the magnetization accumulates `s[i,j]` and the energy
accumulates `-J*s[i,j]*(s[pos0,j] + s[pos1,j] + s[i,pos2] + s[i,pos3])`;
the energy is halved and the magnetization divided by `N = L²`. -/
def var_termo (L : ℕ) (J : ℚ) (s : ℤ → ℤ → ℤ) : ℚ × ℚ :=
  let E : ℚ := ∑ i ∈ Finset.range L, ∑ j ∈ Finset.range L,
    -J * (s i j : ℚ) *
      ((s (pos_vecinos L i j).1 j : ℚ) + (s (pos_vecinos L i j).2.1 j : ℚ) +
       (s i (pos_vecinos L i j).2.2.1 : ℚ) + (s i (pos_vecinos L i j).2.2.2 : ℚ))
  let M : ℚ := ∑ i ∈ Finset.range L, ∑ j ∈ Finset.range L, (s i j : ℚ)
  (E / 2, M / (L : ℚ) ^ 2)

/-- In-place single-cell assignment `s[x, y] = v` on the lattice. -/
def setSpin (s : ℤ → ℤ → ℤ) (x y : ℤ) (v : ℤ) : ℤ → ℤ → ℤ :=
  fun i j => if i = x ∧ j = y then v else s i j

/-- The lattice after the proposed flip `s[x, y] = -s[x, y]`. -/
def flip_espin (s : ℤ → ℤ → ℤ) (x y : ℤ) : ℤ → ℤ → ℤ :=
  setSpin s x y (-(s x y))

/-- The energy difference `Delta_E = E_f - E_0` of the proposed flip. -/
def delta_E (L : ℕ) (J : ℚ) (s : ℤ → ℤ → ℤ) (x y : ℤ) : ℚ :=
  (var_termo L J (flip_espin s x y)).1 - (var_termo L J s).1

open Classical in
/-- Function `cambio_espin(s, beta)`: one Metropolis step.  The randomly drawn
cell `(pos_x, pos_y)` and the uniform acceptance draw `p` are explicit
inputs.  The spin is flipped; if `Delta_E > 0` and `p ≥ exp(-beta*Delta_E)`
the flip is reverted.  Returns the final lattice together with the
returned pair `(E_f, M_0)`. -/
noncomputable def cambio_espin (L : ℕ) (J : ℚ) (s : ℤ → ℤ → ℤ) (beta : ℝ)
    (pos_x pos_y : ℤ) (p : ℝ) : (ℤ → ℤ → ℤ) × ℚ × ℚ :=
  let E_0 := (var_termo L J s).1
  let M_0 := (var_termo L J s).2
  let s1 := flip_espin s pos_x pos_y
  let E_f := (var_termo L J s1).1
  let Delta_E := E_f - E_0
  if 0 < Delta_E then
    if Real.exp (-(beta * (Delta_E : ℝ))) ≤ p then
      (setSpin s1 pos_x pos_y (-(s1 pos_x pos_y)), E_f, M_0)
    else (s1, E_f, M_0)
  else (s1, E_f, M_0)

/-- numpy integer-indexed assignment `a[i] = v` on a 1-D array: an index
in `[0, len)` writes there, an index in `[-len, 0)` writes `len + i`,
anything else is an index-out-of-range error. -/
def npSet (a : List ℚ) (i : ℤ) (v : ℚ) : Option (List ℚ) :=
  if 0 ≤ i ∧ i < (a.length : ℤ) then some (a.set i.toNat v)
  else if -(a.length : ℤ) ≤ i ∧ i < 0 then some (a.set ((a.length : ℤ) + i).toNat v)
  else none

/-- The array position actually written by `a[i] = v` for an array of
length `n` (meaningful when `-n ≤ i < n`). -/
def npResolve (n : ℕ) (i : ℤ) : ℤ :=
  if i < 0 then (n : ℤ) + i else i

/-- The loop `for i in tiempo_sim[1:]` of `evolucion`: at each time
index, perform one `cambio_espin` (consuming one triple of the draw
stream `d`) and store the returned pair at array index `i`. -/
noncomputable def evolucion_loop (L : ℕ) (J : ℚ) (beta : ℝ) (d : ℕ → ℤ × ℤ × ℝ) :
    List ℤ → ℕ → (ℤ → ℤ → ℤ) → List ℚ → List ℚ → Option (List ℚ × List ℚ)
  | [], _, _, aE, aM => some (aE, aM)
  | i :: rest, k, s, aE, aM =>
    let r := cambio_espin L J s beta (d k).1 (d k).2.1 (d k).2.2
    match npSet aE i r.2.1, npSet aM i r.2.2 with
    | some aE2, some aM2 => evolucion_loop L J beta d rest (k + 1) r.1 aE2 aM2
    | _, _ => none

/-- Function `evolucion(tiempo_sim, beta, s)`: record the initial `(E_0, M_0)` at
index 0 of two `np.ones(cant_iter)` arrays, then run one Metropolis step
per entry of `tiempo_sim[1:]`, storing each returned pair at that entry's
literal index value. -/
noncomputable def evolucion (L : ℕ) (J : ℚ) (cant_iter : ℕ) (tiempo_sim : List ℤ)
    (beta : ℝ) (s : ℤ → ℤ → ℤ) (d : ℕ → ℤ × ℤ × ℝ) : Option (List ℚ × List ℚ) :=
  let E_0 := (var_termo L J s).1
  let M_0 := (var_termo L J s).2
  let array_E := List.replicate cant_iter 1
  let array_M := List.replicate cant_iter 1
  match npSet array_E 0 E_0, npSet array_M 0 M_0 with
  | some aE1, some aM1 => evolucion_loop L J beta d tiempo_sim.tail 0 s aE1 aM1
  | _, _ => none

/-- Function `promedios(array_E, array_M, t_estable)`: arithmetic mean of each
series restricted to indices `t_estable` onward. -/
def promedios (array_E array_M : List ℚ) (t_estable : ℕ) : ℚ × ℚ :=
  ((array_E.drop t_estable).sum / ((array_E.drop t_estable).length : ℚ),
   (array_M.drop t_estable).sum / ((array_M.drop t_estable).length : ℚ))

open Classical in
/-- Function `gen_array_espines()`: each cell is `-1` when its uniform draw is
below `0.5`, else `+1`.  The draws are the explicit stream `u`. -/
noncomputable def gen_array_espines (u : ℤ → ℤ → ℝ) : ℤ → ℤ → ℤ :=
  fun i j => if u i j < 0.5 then -1 else 1

/-- Constant `beta_critico = arcsinh(1) / (2*J)`. -/
noncomputable def beta_critico (J : ℚ) : ℝ := Real.arsinh 1 / (2 * (J : ℝ))

/-- Constant `T_critico = 1 / beta_critico`. -/
noncomputable def T_critico (J : ℚ) : ℝ := 1 / beta_critico J

/-- Value of `np.linspace a b num` evaluated at position `k` (endpoint included):
`a + k * (b - a) / (num - 1)`. -/
noncomputable def linspace (a b : ℝ) (num : ℕ) (k : ℕ) : ℝ :=
  a + (k : ℝ) * ((b - a) / ((num : ℝ) - 1))

/-- The body of one iteration of `main`'s temperature loop: a fresh
lattice from the init-draw stream `u`, one `evolucion` run over
`tiempo_sim = np.arange(cant_iter)`, then `promedios`.  (The `none`
branch is unreachable for `0 < cant_iter`: in `main` the time indices
are exactly `0..cant_iter-1`.) -/
noncomputable def sweep_point (L cant_iter t_estable : ℕ) (J : ℚ) (beta : ℝ)
    (u : ℤ → ℤ → ℝ) (d : ℕ → ℤ × ℤ × ℝ) : ℚ × ℚ :=
  match evolucion L J cant_iter ((List.range cant_iter).map (fun n => (n : ℤ)))
      beta (gen_array_espines u) d with
  | some (aE, aM) => promedios aE aM t_estable
  | none => (0, 0)

/-- Function `main()`: temperatures `np.linspace(0.01, 3, cant_Temp) * T_critico`,
`beta = 1/T` for each; two `np.zeros(cant_Temp)` result arrays are filled
in increasing index order with each sample's `(E_prom, M_prom)`.  Streams
`us` and `ds` supply the per-temperature lattice-init and step draws. -/
noncomputable def mainSim (cant_Temp cant_iter t_estable L : ℕ) (J : ℚ)
    (us : ℕ → ℤ → ℤ → ℝ) (ds : ℕ → ℕ → ℤ × ℤ × ℝ) : List ℚ × List ℚ :=
  (List.range cant_Temp).foldl
    (fun acc i =>
      let beta := 1 / (linspace 0.01 3 cant_Temp i * T_critico J)
      let r := sweep_point L cant_iter t_estable J beta (us i) (ds i)
      (acc.1.set i r.1, acc.2.set i r.2))
    (List.replicate cant_Temp 0, List.replicate cant_Temp 0)

/-- Modelled from the spec (§4.3): the Thermodynamic Evaluator with the
four periodic neighbors written directly as modular arithmetic, for
comparison with the source's `var_termo`. -/
def var_termo_spec (L : ℕ) (J : ℚ) (s : ℤ → ℤ → ℤ) : ℚ × ℚ :=
  ((∑ i ∈ Finset.range L, ∑ j ∈ Finset.range L,
      -J * (s i j : ℚ) *
        ((s ((i - 1) % (L : ℤ)) j : ℚ) + (s ((i + 1) % (L : ℤ)) j : ℚ) +
         (s i ((j - 1) % (L : ℤ)) : ℚ) + (s i ((j + 1) % (L : ℤ)) : ℚ))) / 2,
   (∑ i ∈ Finset.range L, ∑ j ∈ Finset.range L, (s i j : ℚ)) / (L : ℚ) ^ 2)

/-! ### Helper lemmas -/

lemma wrap_eq_emod (L : ℕ) (x : ℤ) (hlo : -1 ≤ x) (hhi : x ≤ (L : ℤ)) (hL : 0 < L) :
    wrap L x = x % (L : ℤ) := by
  have hL0 : (0 : ℤ) < (L : ℤ) := by exact_mod_cast hL
  unfold wrap
  split_ifs with h1 h2
  · subst h1
    have h3 : ((L : ℤ) - 1) % (L : ℤ) = (-1 + (L : ℤ) * 1) % (L : ℤ) := by
      congr 1; ring
    rw [Int.add_mul_emod_self_left] at h3
    rw [← h3, Int.emod_eq_of_lt (by omega) (by omega)]
  · subst h2; rw [Int.emod_self]
  · rw [Int.emod_eq_of_lt (by omega) (by omega)]

lemma var_termo_fst (L : ℕ) (J : ℚ) (s : ℤ → ℤ → ℤ) :
    (var_termo L J s).1 = (∑ i ∈ Finset.range L, ∑ j ∈ Finset.range L,
      -J * (s i j : ℚ) *
        ((s (pos_vecinos L i j).1 j : ℚ) + (s (pos_vecinos L i j).2.1 j : ℚ) +
         (s i (pos_vecinos L i j).2.2.1 : ℚ) + (s i (pos_vecinos L i j).2.2.2 : ℚ))) / 2 :=
  rfl

lemma var_termo_snd (L : ℕ) (J : ℚ) (s : ℤ → ℤ → ℤ) :
    (var_termo L J s).2 =
      (∑ i ∈ Finset.range L, ∑ j ∈ Finset.range L, (s i j : ℚ)) / (L : ℚ) ^ 2 :=
  rfl

/-! ### C4: the Neighbor Resolver -/

/-- C4: for `0 ≤ i, j < L`, `pos_vecinos` returns the four indices
`i-1, i+1, j-1, j+1` with `-1` replaced by `L-1` and `L` replaced by `0`
(equivalently, reduced mod `L`); concretely, for `L = 9` it returns
`(8, 1, 8, 1)` at `(0,0)` and `(7, 0, 7, 0)` at `(8,8)`, and for `L = 1`
all four indices are `0`. -/
theorem pos_vecinos_periodic (L : ℕ) (i j : ℤ)
    (hi0 : 0 ≤ i) (hiL : i < (L : ℤ)) (hj0 : 0 ≤ j) (hjL : j < (L : ℤ)) :
    pos_vecinos L i j =
      ((i - 1) % (L : ℤ), (i + 1) % (L : ℤ), (j - 1) % (L : ℤ), (j + 1) % (L : ℤ)) ∧
    pos_vecinos 9 0 0 = (8, 1, 8, 1) ∧ pos_vecinos 9 8 8 = (7, 0, 7, 0) ∧
    pos_vecinos 1 0 0 = (0, 0, 0, 0) := by
  have hL : 0 < L := by omega
  refine ⟨?_, by decide, by decide, by decide⟩
  unfold pos_vecinos
  rw [wrap_eq_emod L (i - 1) (by omega) (by omega) hL,
      wrap_eq_emod L (i + 1) (by omega) (by omega) hL,
      wrap_eq_emod L (j - 1) (by omega) (by omega) hL,
      wrap_eq_emod L (j + 1) (by omega) (by omega) hL]

/-- Witness for C4 at `L = 9`, `(i, j) = (0, 0)` and `L = 1`. -/
theorem pos_vecinos_periodic_witness :
    pos_vecinos 9 0 0 =
      (((0 : ℤ) - 1) % (9 : ℤ), ((0 : ℤ) + 1) % (9 : ℤ),
       ((0 : ℤ) - 1) % (9 : ℤ), ((0 : ℤ) + 1) % (9 : ℤ)) ∧
    pos_vecinos 1 0 0 = (0, 0, 0, 0) :=
  ⟨(pos_vecinos_periodic 9 0 0 (by norm_num) (by norm_num) (by norm_num) (by norm_num)).1,
   (pos_vecinos_periodic 1 0 0 (by norm_num) (by norm_num) (by norm_num)
      (by norm_num)).2.2.2⟩

/-! ### C3: the Thermodynamic Evaluator -/

/-- C3: `var_termo` computes the spec's energy sum (neighbors taken mod
`L`, total halved) and the mean magnetization; on the all-`+1` lattice it
returns `E = -2*J*N` (with `N = L²`) and `M = 1`. -/
theorem var_termo_formula (L : ℕ) (J : ℚ) (s : ℤ → ℤ → ℤ) (hL : 0 < L) :
    var_termo L J s = var_termo_spec L J s ∧
    var_termo L J (fun _ _ => 1) = (-2 * J * (L : ℚ) ^ 2, 1) := by
  constructor
  · refine Prod.ext ?_ rfl
    rw [var_termo_fst]
    unfold var_termo_spec
    simp only
    congr 1
    refine Finset.sum_congr rfl fun i hi => Finset.sum_congr rfl fun j hj => ?_
    rw [Finset.mem_range] at hi hj
    unfold pos_vecinos
    rw [wrap_eq_emod L ((i : ℤ) - 1) (by omega) (by omega) hL,
        wrap_eq_emod L ((i : ℤ) + 1) (by omega) (by omega) hL,
        wrap_eq_emod L ((j : ℤ) - 1) (by omega) (by omega) hL,
        wrap_eq_emod L ((j : ℤ) + 1) (by omega) (by omega) hL]
  · have hL0 : ((L : ℚ)) ≠ 0 := Nat.cast_ne_zero.mpr hL.ne'
    refine Prod.ext ?_ ?_
    · rw [var_termo_fst]
      simp only [Int.cast_one, Finset.sum_const, Finset.card_range, nsmul_eq_mul]
      ring
    · rw [var_termo_snd]
      simp only [Int.cast_one, Finset.sum_const, Finset.card_range, nsmul_eq_mul, mul_one]
      rw [sq]
      field_simp

/-- Witness for C3 at `L = 2`, `J = 1`, one lattice with a single
flipped spin for the formula and the all-`+1` lattice. -/
theorem var_termo_formula_witness :
    var_termo 2 1 (flip_espin (fun _ _ => 1) 0 0) =
      var_termo_spec 2 1 (flip_espin (fun _ _ => 1) 0 0) ∧
    var_termo 2 1 (fun _ _ => 1) = (-2 * 1 * (2 : ℚ) ^ 2, 1) :=
  ⟨(var_termo_formula 2 1 (flip_espin (fun _ _ => 1) 0 0) (by norm_num)).1,
   (var_termo_formula 2 1 (fun _ _ => 1) (by norm_num)).2⟩

/-! ### C9: magnetization bounds and energy quantization -/

/-- C9: for spins in `{-1, +1}`, the magnetization of `var_termo` lies
in `[-1, 1]` and its energy is an integer multiple of `J/2`. -/
theorem var_termo_bounds (L : ℕ) (J : ℚ) (s : ℤ → ℤ → ℤ)
    (hs : ∀ i j : ℤ, s i j = 1 ∨ s i j = -1) :
    -1 ≤ (var_termo L J s).2 ∧ (var_termo L J s).2 ≤ 1 ∧
    ∃ k : ℤ, (var_termo L J s).1 = J / 2 * (k : ℚ) := by
  have habs : |∑ i ∈ Finset.range L, ∑ j ∈ Finset.range L, (s i j : ℚ)| ≤ (L : ℚ) ^ 2 := by
    calc |∑ i ∈ Finset.range L, ∑ j ∈ Finset.range L, (s i j : ℚ)|
        ≤ ∑ i ∈ Finset.range L, |∑ j ∈ Finset.range L, (s i j : ℚ)| :=
          Finset.abs_sum_le_sum_abs _ _
      _ ≤ ∑ i ∈ Finset.range L, ∑ j ∈ Finset.range L, |(s i j : ℚ)| :=
          Finset.sum_le_sum fun i _ => Finset.abs_sum_le_sum_abs _ _
      _ = ∑ i ∈ Finset.range L, ∑ j ∈ Finset.range L, (1 : ℚ) := by
          refine Finset.sum_congr rfl fun i _ => Finset.sum_congr rfl fun j _ => ?_
          rcases hs (i : ℤ) (j : ℤ) with h | h <;> rw [h] <;> norm_num
      _ = (L : ℚ) ^ 2 := by
          simp [Finset.sum_const, Finset.card_range, sq]
  have hM : -1 ≤ (var_termo L J s).2 ∧ (var_termo L J s).2 ≤ 1 := by
    rcases Nat.eq_zero_or_pos L with h0 | hpos
    · subst h0
      rw [var_termo_snd]
      norm_num
    · have hL2 : (0 : ℚ) < (L : ℚ) ^ 2 := by positivity
      refine abs_le.mp ?_
      rw [var_termo_snd, abs_div, abs_of_pos hL2, div_le_one hL2]
      exact habs
  refine ⟨hM.1, hM.2,
    ⟨∑ i ∈ Finset.range L, ∑ j ∈ Finset.range L,
      -(s (i : ℤ) (j : ℤ)) *
        (s (pos_vecinos L i j).1 j + s (pos_vecinos L i j).2.1 j +
         s (i : ℤ) (pos_vecinos L i j).2.2.1 + s (i : ℤ) (pos_vecinos L i j).2.2.2), ?_⟩⟩
  rw [var_termo_fst]
  push_cast
  rw [Finset.mul_sum, Finset.sum_div]
  refine Finset.sum_congr rfl fun i _ => ?_
  rw [Finset.mul_sum, Finset.sum_div]
  refine Finset.sum_congr rfl fun j _ => ?_
  ring

/-- Witness for C9 on the all-`+1` lattice with `L = 1`, `J = 3`. -/
theorem var_termo_bounds_witness :
    -1 ≤ (var_termo 1 3 (fun _ _ => 1)).2 ∧ (var_termo 1 3 (fun _ _ => 1)).2 ≤ 1 ∧
    ∃ k : ℤ, (var_termo 1 3 (fun _ _ => 1)).1 = 3 / 2 * (k : ℚ) :=
  var_termo_bounds 1 3 (fun _ _ => 1) (fun _ _ => Or.inl rfl)

/-! ### C7: equilibrium averaging -/

/-- C7: for a cutoff below the series length, `promedios` returns the
arithmetic mean of each series restricted to indices `t_estable` onward
(the mean times the number of kept samples recovers their sum), and on
constant series it returns the constants. -/
theorem promedios_mean (aE aM : List ℚ) (t : ℕ)
    (hE : t < aE.length) (hM : t < aM.length)
    (c d : ℚ) (n m : ℕ) (hn : t < n) (hm : t < m) :
    ((aE.length - t : ℕ) : ℚ) * (promedios aE aM t).1 = (aE.drop t).sum ∧
    ((aM.length - t : ℕ) : ℚ) * (promedios aE aM t).2 = (aM.drop t).sum ∧
    promedios (List.replicate n c) (List.replicate m d) t = (c, d) := by
  refine ⟨?_, ?_, ?_⟩
  · unfold promedios
    rw [List.length_drop]
    have h0 : ((aE.length - t : ℕ) : ℚ) ≠ 0 := by
      have : 0 < aE.length - t := by omega
      exact_mod_cast this.ne'
    field_simp
  · unfold promedios
    rw [List.length_drop]
    have h0 : ((aM.length - t : ℕ) : ℚ) ≠ 0 := by
      have : 0 < aM.length - t := by omega
      exact_mod_cast this.ne'
    field_simp
  · unfold promedios
    rw [List.drop_replicate, List.drop_replicate, List.sum_replicate, List.sum_replicate,
        List.length_replicate, List.length_replicate]
    have hn0 : ((n - t : ℕ) : ℚ) ≠ 0 := by
      have : 0 < n - t := by omega
      exact_mod_cast this.ne'
    have hm0 : ((m - t : ℕ) : ℚ) ≠ 0 := by
      have : 0 < m - t := by omega
      exact_mod_cast this.ne'
    rw [nsmul_eq_mul, nsmul_eq_mul]
    exact Prod.ext (mul_div_cancel_left₀ c hn0) (mul_div_cancel_left₀ d hm0)

/-- Witness for C7 on concrete four-element series with cutoff 2. -/
theorem promedios_mean_witness :
    (((([(1 : ℚ), 2, 3, 4]).length - 2 : ℕ) : ℚ) *
        (promedios [(1 : ℚ), 2, 3, 4] [(5 : ℚ), 5, 5, 5] 2).1 =
      (([(1 : ℚ), 2, 3, 4]).drop 2).sum) ∧
    promedios (List.replicate 4 (5 : ℚ)) (List.replicate 4 (7 : ℚ)) 2 = (5, 7) :=
  ⟨(promedios_mean [(1 : ℚ), 2, 3, 4] [(5 : ℚ), 5, 5, 5] 2 (by norm_num) (by norm_num)
      5 7 4 4 (by norm_num) (by norm_num)).1,
   (promedios_mean (List.replicate 4 (5 : ℚ)) (List.replicate 4 (7 : ℚ)) 2
      (by norm_num) (by norm_num) 5 7 4 4 (by norm_num) (by norm_num)).2.2⟩

/-- Unfolding characterization of `cambio_espin`, with the locals
`s1`, `E_f`, `M_0` and `Delta_E` written out. -/
lemma cambio_espin_eq (L : ℕ) (J : ℚ) (s : ℤ → ℤ → ℤ) (beta : ℝ) (x y : ℤ) (p : ℝ) :
    cambio_espin L J s beta x y p =
      if 0 < delta_E L J s x y then
        if Real.exp (-(beta * (delta_E L J s x y : ℝ))) ≤ p then
          (setSpin (flip_espin s x y) x y (-(flip_espin s x y x y)),
           (var_termo L J (flip_espin s x y)).1, (var_termo L J s).2)
        else (flip_espin s x y, (var_termo L J (flip_espin s x y)).1, (var_termo L J s).2)
      else (flip_espin s x y, (var_termo L J (flip_espin s x y)).1, (var_termo L J s).2) := rfl

/-! ### C2: the Metropolis step's return value -/

/-- C2: `cambio_espin` always returns the pair `(E_f, M_0)` — the energy
of the lattice right after the proposed flip and the magnetization of
the lattice before the flip — regardless of acceptance or revert. -/
theorem cambio_espin_return (L : ℕ) (J : ℚ) (s : ℤ → ℤ → ℤ) (beta : ℝ)
    (x y : ℤ) (p : ℝ) :
    (cambio_espin L J s beta x y p).2 =
      ((var_termo L J (flip_espin s x y)).1, (var_termo L J s).2) := by
  rw [cambio_espin_eq]
  split_ifs <;> rfl

/-- Reverting the flip restores the original lattice exactly. -/
lemma setSpin_flip_flip (s : ℤ → ℤ → ℤ) (x y : ℤ) :
    setSpin (flip_espin s x y) x y (-(flip_espin s x y x y)) = s := by
  funext i j
  unfold flip_espin setSpin
  by_cases h : i = x ∧ j = y
  · rcases h with ⟨hx, hy⟩
    subst hx; subst hy
    simp
  · simp [h]

/-- A flipped `±1` lattice differs from the original. -/
lemma flip_espin_ne (s : ℤ → ℤ → ℤ) (x y : ℤ) (hxy : s x y = 1 ∨ s x y = -1) :
    flip_espin s x y ≠ s := by
  intro h
  have h2 := congrFun (congrFun h x) y
  unfold flip_espin setSpin at h2
  simp only [and_self, if_true, if_pos] at h2
  rcases hxy with h1 | h1 <;> rw [h1] at h2 <;> norm_num at h2

/-! ### C1: the Metropolis acceptance rule -/

/-- C1: one Metropolis step leaves the proposed flip applied whenever
`Delta_E ≤ 0`; when `Delta_E > 0` the flip is reverted iff the
acceptance draw satisfies `p ≥ exp(-beta*Delta_E)`, and kept
otherwise. -/
theorem cambio_espin_acceptance (L : ℕ) (J : ℚ) (s : ℤ → ℤ → ℤ) (beta : ℝ)
    (x y : ℤ) (p : ℝ)
    (hs : ∀ i j : ℤ, s i j = 1 ∨ s i j = -1) (hbeta : 0 < beta) :
    (delta_E L J s x y ≤ 0 →
      (cambio_espin L J s beta x y p).1 = flip_espin s x y) ∧
    (0 < delta_E L J s x y →
      (((cambio_espin L J s beta x y p).1 = s) ↔
        Real.exp (-(beta * (delta_E L J s x y : ℝ))) ≤ p) ∧
      (p < Real.exp (-(beta * (delta_E L J s x y : ℝ))) →
        (cambio_espin L J s beta x y p).1 = flip_espin s x y)) := by
  rw [cambio_espin_eq]
  constructor
  · intro hle
    rw [if_neg (not_lt.mpr hle)]
  · intro hpos
    rw [if_pos hpos]
    constructor
    · constructor
      · intro heq
        by_contra hnp
        rw [if_neg hnp] at heq
        exact flip_espin_ne s x y (hs x y) heq
      · intro hp
        rw [if_pos hp]
        exact setSpin_flip_flip s x y
    · intro hp
      rw [if_neg (not_le.mpr hp)]

/-- Witness for C1 on the `L = 1` all-`+1` lattice, where the flip has
`Delta_E = 0` and is left applied. -/
theorem cambio_espin_acceptance_witness :
    delta_E 1 1 (fun _ _ => 1) 0 0 ≤ 0 ∧
    (cambio_espin 1 1 (fun _ _ => 1) 1 0 0 (1 / 2)).1 = flip_espin (fun _ _ => 1) 0 0 := by
  have h : delta_E 1 1 (fun _ _ => 1) 0 0 = 0 := by
    norm_num [delta_E, var_termo, flip_espin, setSpin, pos_vecinos, wrap,
      Finset.sum_range_succ]
  exact ⟨le_of_eq h,
    (cambio_espin_acceptance 1 1 (fun _ _ => 1) 1 0 0 (1 / 2)
      (fun _ _ => Or.inl rfl) (by norm_num)).1 (le_of_eq h)⟩

/-! ### C5: the Metropolis step's frame property -/

/-- C5: `cambio_espin` mutates at most the selected cell `(x, y)` —
every other cell is unchanged — and in the rejection branch
(`Delta_E > 0` and `p ≥ exp(-beta*Delta_E)`) the whole lattice equals
its pre-call state. -/
theorem cambio_espin_frame (L : ℕ) (J : ℚ) (s : ℤ → ℤ → ℤ) (beta : ℝ)
    (x y : ℤ) (p : ℝ) :
    (∀ i j : ℤ, ¬(i = x ∧ j = y) →
      (cambio_espin L J s beta x y p).1 i j = s i j) ∧
    (0 < delta_E L J s x y → Real.exp (-(beta * (delta_E L J s x y : ℝ))) ≤ p →
      (cambio_espin L J s beta x y p).1 = s) := by
  rw [cambio_espin_eq]
  constructor
  · intro i j hij
    split_ifs <;> simp [setSpin, flip_espin, hij]
  · intro hpos hp
    rw [if_pos hpos, if_pos hp]
    exact setSpin_flip_flip s x y

/-- Witness for C5 on the `L = 2` all-`+1` lattice with `p = 1`: the
flip at `(0,0)` raises the energy and is reverted. -/
theorem cambio_espin_frame_witness :
    (cambio_espin 2 1 (fun _ _ => 1) 1 0 0 1).1 1 1 = 1 ∧
    (cambio_espin 2 1 (fun _ _ => 1) 1 0 0 1).1 = (fun _ _ => 1) := by
  have hd : delta_E 2 1 (fun _ _ => 1) 0 0 = 8 := by
    norm_num [delta_E, var_termo, flip_espin, setSpin, pos_vecinos, wrap,
      Finset.sum_range_succ]
  have hpos : 0 < delta_E 2 1 (fun _ _ => 1) 0 0 := by rw [hd]; norm_num
  have hp : Real.exp (-((1 : ℝ) * ((delta_E 2 1 (fun _ _ => 1) 0 0 : ℚ) : ℝ))) ≤ 1 := by
    rw [Real.exp_le_one_iff, hd]
    norm_num
  exact ⟨(cambio_espin_frame 2 1 (fun _ _ => 1) 1 0 0 1).1 1 1 (by norm_num),
    (cambio_espin_frame 2 1 (fun _ _ => 1) 1 0 0 1).2 hpos hp⟩

/-! ### Array-write lemmas for the Evolution Driver -/

lemma npSet_length {a b : List ℚ} {i : ℤ} {v : ℚ} (h : npSet a i v = some b) :
    b.length = a.length := by
  unfold npSet at h
  split_ifs at h <;> cases h <;> rw [List.length_set]

lemma npSet_isSome {a : List ℚ} {i : ℤ} (v : ℚ)
    (h1 : -(a.length : ℤ) ≤ i) (h2 : i < (a.length : ℤ)) :
    ∃ b, npSet a i v = some b := by
  unfold npSet
  split_ifs with h3 h4
  · exact ⟨_, rfl⟩
  · exact ⟨_, rfl⟩
  · omega

lemma npSet_getD_ne {a b : List ℚ} {i : ℤ} {v : ℚ} (k : ℕ)
    (h : npSet a i v = some b) (hk : npResolve a.length i ≠ (k : ℤ)) :
    b.getD k 0 = a.getD k 0 := by
  unfold npSet at h
  unfold npResolve at hk
  split_ifs at h with h1 h2
  · cases h
    rw [if_neg (by omega : ¬ i < 0)] at hk
    rw [List.getD_eq_getElem?_getD, List.getD_eq_getElem?_getD,
        List.getElem?_set_ne (by omega : i.toNat ≠ k)]
  · cases h
    rw [if_pos (by omega : i < 0)] at hk
    rw [List.getD_eq_getElem?_getD, List.getD_eq_getElem?_getD,
        List.getElem?_set_ne (by omega : ((a.length : ℤ) + i).toNat ≠ k)]

/-- Invariant of the `evolucion` loop: if every time index is a valid
numpy index for arrays of length `n`, the loop completes, preserves the
array lengths, and leaves untouched positions unchanged. -/
lemma evolucion_loop_spec (L : ℕ) (J : ℚ) (beta : ℝ) (d : ℕ → ℤ × ℤ × ℝ) (n : ℕ)
    (is : List ℤ) :
    ∀ (k : ℕ) (s : ℤ → ℤ → ℤ) (aE aM : List ℚ),
      aE.length = n → aM.length = n →
      (∀ i ∈ is, -(n : ℤ) ≤ i ∧ i < (n : ℤ)) →
      ∃ bE bM, evolucion_loop L J beta d is k s aE aM = some (bE, bM) ∧
        bE.length = n ∧ bM.length = n ∧
        ∀ kp : ℕ, (∀ i ∈ is, npResolve n i ≠ (kp : ℤ)) →
          bE.getD kp 0 = aE.getD kp 0 ∧ bM.getD kp 0 = aM.getD kp 0 := by
  induction is with
  | nil =>
    intro k s aE aM hE hM _
    exact ⟨aE, aM, rfl, hE, hM, fun kp _ => ⟨rfl, rfl⟩⟩
  | cons i rest ih =>
    intro k s aE aM hE hM hb
    obtain ⟨hbi1, hbi2⟩ := hb i (List.mem_cons_self i rest)
    obtain ⟨aE2, hE2⟩ :=
      npSet_isSome (a := aE) (i := i)
        ((cambio_espin L J s beta (d k).1 (d k).2.1 (d k).2.2).2.1)
        (by rw [hE]; exact hbi1) (by rw [hE]; exact hbi2)
    obtain ⟨aM2, hM2⟩ :=
      npSet_isSome (a := aM) (i := i)
        ((cambio_espin L J s beta (d k).1 (d k).2.1 (d k).2.2).2.2)
        (by rw [hM]; exact hbi1) (by rw [hM]; exact hbi2)
    obtain ⟨bE, bM, hloop, hlE, hlM, hpres⟩ :=
      ih (k + 1) (cambio_espin L J s beta (d k).1 (d k).2.1 (d k).2.2).1 aE2 aM2
        ((npSet_length hE2).trans hE) ((npSet_length hM2).trans hM)
        (fun i' hi' => hb i' (List.mem_cons_of_mem i hi'))
    refine ⟨bE, bM, ?_, hlE, hlM, ?_⟩
    · simp only [evolucion_loop]
      rw [hE2, hM2]
      exact hloop
    · intro kp hkp
      obtain ⟨p1, p2⟩ := hpres kp (fun i' hi' => hkp i' (List.mem_cons_of_mem i hi'))
      have q1 := npSet_getD_ne kp hE2
        (by rw [hE]; exact hkp i (List.mem_cons_self i rest))
      have q2 := npSet_getD_ne kp hM2
        (by rw [hM]; exact hkp i (List.mem_cons_self i rest))
      exact ⟨p1.trans q1, p2.trans q2⟩

/-- Running `evolucion` under valid time indices: the run completes with arrays
of length `cant_iter`, and any position `1 ≤ kp < cant_iter` that no
time index resolves to still holds the `np.ones` initial value `1`. -/
lemma evolucion_spec (L : ℕ) (J : ℚ) (cant_iter : ℕ) (ts : List ℤ) (beta : ℝ)
    (s : ℤ → ℤ → ℤ) (d : ℕ → ℤ × ℤ × ℝ) (h0 : 0 < cant_iter)
    (hb : ∀ i ∈ ts.tail, -(cant_iter : ℤ) ≤ i ∧ i < (cant_iter : ℤ)) :
    ∃ aE aM, evolucion L J cant_iter ts beta s d = some (aE, aM) ∧
      aE.length = cant_iter ∧ aM.length = cant_iter ∧
      ∀ kp : ℕ, 1 ≤ kp → kp < cant_iter →
        (∀ i ∈ ts.tail, npResolve cant_iter i ≠ (kp : ℤ)) →
        aE.getD kp 0 = 1 ∧ aM.getD kp 0 = 1 := by
  have hset0 : ∀ v : ℚ, npSet (List.replicate cant_iter 1) 0 v =
      some ((List.replicate cant_iter 1).set 0 v) := by
    intro v
    unfold npSet
    rw [if_pos ⟨le_refl 0, by rw [List.length_replicate]; exact_mod_cast h0⟩]
    rw [Int.toNat_zero]
  have hinit : ∀ (v : ℚ) (kp : ℕ), 1 ≤ kp → kp < cant_iter →
      ((List.replicate cant_iter (1 : ℚ)).set 0 v).getD kp 0 = 1 := by
    intro v kp hk1 hk2
    rw [List.getD_eq_getElem?_getD, List.getElem?_set_ne (by omega : 0 ≠ kp),
        List.getElem?_replicate, if_pos hk2]
    rfl
  obtain ⟨bE, bM, hloop, hlE, hlM, hpres⟩ :=
    evolucion_loop_spec L J beta d cant_iter ts.tail 0 s
      ((List.replicate cant_iter 1).set 0 (var_termo L J s).1)
      ((List.replicate cant_iter 1).set 0 (var_termo L J s).2)
      (by rw [List.length_set, List.length_replicate])
      (by rw [List.length_set, List.length_replicate]) hb
  refine ⟨bE, bM, ?_, hlE, hlM, ?_⟩
  · simp only [evolucion]
    rw [hset0, hset0]
    exact hloop
  · intro kp hk1 hk2 hcov
    obtain ⟨p1, p2⟩ := hpres kp hcov
    exact ⟨p1.trans (hinit _ kp hk1 hk2), p2.trans (hinit _ kp hk1 hk2)⟩

/-! ### C6: bounds-safety of the Evolution Driver's writes -/

/-- C6 counterexample: with `cant_iter = 1` and time-index sequence
`[0, 1]`, the write at literal index `1` into the length-1 output arrays
is out of range: `evolucion` reaches the index-error branch. -/
theorem evolucion_out_of_range :
    evolucion 1 1 1 [0, 1] 1 (fun _ _ => 1) (fun _ => (0, 0, 1)) = none := rfl

/-- C6 (amended): each step's recorded pair is written at the literal
index value from `tiempo_sim[1:]`; the writes are bounds-safe — the
error branch unreachable — provided `cant_iter > 0` and every such index
lies in numpy's valid range `[-cant_iter, cant_iter)`, in which case the
run returns two arrays of length `cant_iter`. -/
theorem evolucion_bounds_safe (L : ℕ) (J : ℚ) (cant_iter : ℕ) (ts : List ℤ)
    (beta : ℝ) (s : ℤ → ℤ → ℤ) (d : ℕ → ℤ × ℤ × ℝ) (h0 : 0 < cant_iter)
    (hb : ∀ i ∈ ts.tail, -(cant_iter : ℤ) ≤ i ∧ i < (cant_iter : ℤ)) :
    ∃ aE aM, evolucion L J cant_iter ts beta s d = some (aE, aM) ∧
      aE.length = cant_iter ∧ aM.length = cant_iter := by
  obtain ⟨aE, aM, h, hE, hM, _⟩ := evolucion_spec L J cant_iter ts beta s d h0 hb
  exact ⟨aE, aM, h, hE, hM⟩

/-- Witness for the amended C6 with `cant_iter = 2`, `tiempo_sim = [0, 1]`. -/
theorem evolucion_bounds_safe_witness :
    ∃ aE aM, evolucion 1 1 2 [0, 1] 1 (fun _ _ => 1) (fun _ => (0, 0, 1)) =
        some (aE, aM) ∧ aE.length = 2 ∧ aM.length = 2 :=
  evolucion_bounds_safe 1 1 2 [0, 1] 1 (fun _ _ => 1) (fun _ => (0, 0, 1))
    (by norm_num) (by decide)

/-! ### C10: untouched positions keep the `np.ones` initial value -/

/-- C10: the output arrays start as `np.ones(cant_iter)`; position 0 and
the positions written from `tiempo_sim[1:]` are overwritten, so any
position `k` with `1 ≤ k < cant_iter` that no time index resolves to
still holds exactly `1` in both arrays (stated for runs whose indices
are all in numpy range, so that the run completes). -/
theorem evolucion_untouched_ones (L : ℕ) (J : ℚ) (cant_iter : ℕ) (ts : List ℤ)
    (beta : ℝ) (s : ℤ → ℤ → ℤ) (d : ℕ → ℤ × ℤ × ℝ) (k : ℕ)
    (h0 : 0 < cant_iter)
    (hb : ∀ i ∈ ts.tail, -(cant_iter : ℤ) ≤ i ∧ i < (cant_iter : ℤ))
    (hk1 : 1 ≤ k) (hk2 : k < cant_iter)
    (hcov : ∀ i ∈ ts.tail, npResolve cant_iter i ≠ (k : ℤ)) :
    ((evolucion L J cant_iter ts beta s d).getD ([], [])).1.getD k 0 = 1 ∧
    ((evolucion L J cant_iter ts beta s d).getD ([], [])).2.getD k 0 = 1 := by
  obtain ⟨aE, aM, h, _, _, hpres⟩ := evolucion_spec L J cant_iter ts beta s d h0 hb
  rw [h]
  exact hpres k hk1 hk2 hcov

/-- Witness for C10: `cant_iter = 3`, `tiempo_sim = [0, 1]`, position 2
is never written and keeps the value 1. -/
theorem evolucion_untouched_ones_witness :
    ((evolucion 1 1 3 [0, 1] 1 (fun _ _ => 1) (fun _ => (0, 0, 1))).getD
        ([], [])).1.getD 2 0 = 1 ∧
    ((evolucion 1 1 3 [0, 1] 1 (fun _ _ => 1) (fun _ => (0, 0, 1))).getD
        ([], [])).2.getD 2 0 = 1 :=
  evolucion_untouched_ones 1 1 3 [0, 1] 1 (fun _ _ => 1) (fun _ => (0, 0, 1)) 2
    (by norm_num) (by decide) (by norm_num) (by norm_num) (by decide)

/-! ### C8: the Temperature Sweep Controller -/

/-- The result-array filling loop of `main`, abstracted over the
per-index values `f i` and `g i` stored at index `i`. -/
def mainFold (f g : ℕ → ℚ) (is : List ℕ) (acc : List ℚ × List ℚ) : List ℚ × List ℚ :=
  is.foldl (fun acc i => (acc.1.set i (f i), acc.2.set i (g i))) acc

lemma mainSim_eq_mainFold (cant_Temp cant_iter t_estable L : ℕ) (J : ℚ)
    (us : ℕ → ℤ → ℤ → ℝ) (ds : ℕ → ℕ → ℤ × ℤ × ℝ) :
    mainSim cant_Temp cant_iter t_estable L J us ds =
      mainFold
        (fun i => (sweep_point L cant_iter t_estable J
          (1 / (linspace 0.01 3 cant_Temp i * T_critico J)) (us i) (ds i)).1)
        (fun i => (sweep_point L cant_iter t_estable J
          (1 / (linspace 0.01 3 cant_Temp i * T_critico J)) (us i) (ds i)).2)
        (List.range cant_Temp)
        (List.replicate cant_Temp 0, List.replicate cant_Temp 0) := rfl

lemma mainFold_length (f g : ℕ → ℚ) (is : List ℕ) :
    ∀ acc : List ℚ × List ℚ,
      (mainFold f g is acc).1.length = acc.1.length ∧
      (mainFold f g is acc).2.length = acc.2.length := by
  induction is with
  | nil => intro acc; exact ⟨rfl, rfl⟩
  | cons i rest ih =>
    intro acc
    have h := ih (acc.1.set i (f i), acc.2.set i (g i))
    simpa [mainFold, List.length_set] using h

lemma mainFold_range_getD (f g : ℕ → ℚ) (N : ℕ) (acc : List ℚ × List ℚ)
    (hE : acc.1.length = N) (hM : acc.2.length = N) :
    ∀ n, n ≤ N → ∀ k, k < n →
      (mainFold f g (List.range n) acc).1.getD k 0 = f k ∧
      (mainFold f g (List.range n) acc).2.getD k 0 = g k := by
  intro n
  induction n with
  | zero => intro _ k hk; omega
  | succ n ih =>
    intro hn k hk
    have hprev1 : (mainFold f g (List.range n) acc).1.length = N :=
      (mainFold_length f g (List.range n) acc).1.trans hE
    have hprev2 : (mainFold f g (List.range n) acc).2.length = N :=
      (mainFold_length f g (List.range n) acc).2.trans hM
    have hstep : mainFold f g (List.range (n + 1)) acc =
        ((mainFold f g (List.range n) acc).1.set n (f n),
         (mainFold f g (List.range n) acc).2.set n (g n)) := by
      rw [List.range_succ]
      unfold mainFold
      rw [List.foldl_append]
      rfl
    rw [hstep]
    rcases Nat.lt_succ_iff_lt_or_eq.mp hk with hlt | heq
    · obtain ⟨p1, p2⟩ := ih (by omega) k hlt
      constructor
      · rw [List.getD_eq_getElem?_getD, List.getElem?_set_ne (by omega : n ≠ k),
            ← List.getD_eq_getElem?_getD]
        exact p1
      · rw [List.getD_eq_getElem?_getD, List.getElem?_set_ne (by omega : n ≠ k),
            ← List.getD_eq_getElem?_getD]
        exact p2
    · subst heq
      constructor
      · rw [List.getD_eq_getElem?_getD, List.getElem?_set_self (by omega)]
        rfl
      · rw [List.getD_eq_getElem?_getD, List.getElem?_set_self (by omega)]
        rfl

/-- C8: `main` fills the two `cant_Temp`-long result arrays with one
`(E_prom, M_prom)` pair per temperature index; the `i`-th entry is the
equilibrium average of an Evolution-Driver run at `beta = 1/T_i` on a
fresh randomized lattice, where `T_i = linspace(0.01, 3, cant_Temp)[i] *
T_critico`; the `linspace` factors start at `0.01` and end at `3`. -/
theorem main_sweep (cant_Temp cant_iter t_estable L : ℕ) (J : ℚ)
    (us : ℕ → ℤ → ℤ → ℝ) (ds : ℕ → ℕ → ℤ × ℤ × ℝ) (h2 : 2 ≤ cant_Temp) :
    (mainSim cant_Temp cant_iter t_estable L J us ds).1.length = cant_Temp ∧
    (mainSim cant_Temp cant_iter t_estable L J us ds).2.length = cant_Temp ∧
    (∀ i, i < cant_Temp →
      ((mainSim cant_Temp cant_iter t_estable L J us ds).1.getD i 0,
       (mainSim cant_Temp cant_iter t_estable L J us ds).2.getD i 0) =
        sweep_point L cant_iter t_estable J
          (1 / (linspace 0.01 3 cant_Temp i * T_critico J)) (us i) (ds i)) ∧
    linspace 0.01 3 cant_Temp 0 = 0.01 ∧
    linspace 0.01 3 cant_Temp (cant_Temp - 1) = 3 := by
  have hlen1 : (List.replicate cant_Temp (0 : ℚ)).length = cant_Temp :=
    List.length_replicate _ _
  refine ⟨?_, ?_, ?_, ?_, ?_⟩
  · rw [mainSim_eq_mainFold]
    exact (mainFold_length _ _ _ _).1.trans hlen1
  · rw [mainSim_eq_mainFold]
    exact (mainFold_length _ _ _ _).2.trans hlen1
  · intro i hi
    rw [mainSim_eq_mainFold]
    obtain ⟨p1, p2⟩ := mainFold_range_getD _ _ cant_Temp
      (List.replicate cant_Temp 0, List.replicate cant_Temp 0) hlen1 hlen1
      cant_Temp (le_refl _) i hi
    rw [p1, p2]
  · unfold linspace
    norm_num
  · unfold linspace
    have hne : ((cant_Temp : ℝ)) - 1 ≠ 0 := by
      have : (2 : ℝ) ≤ (cant_Temp : ℝ) := by exact_mod_cast h2
      intro hc
      nlinarith
    have hcast : ((cant_Temp - 1 : ℕ) : ℝ) = (cant_Temp : ℝ) - 1 := by
      have h1 : 1 ≤ cant_Temp := by omega
      rw [Nat.cast_sub h1, Nat.cast_one]
    rw [hcast]
    field_simp

/-- Witness for C8 with `cant_Temp = 2` and a trivial one-site, one-step
configuration. -/
theorem main_sweep_witness :
    (mainSim 2 1 0 1 1 (fun _ _ _ => 1) (fun _ _ => (0, 0, 1))).1.length = 2 ∧
    ((mainSim 2 1 0 1 1 (fun _ _ _ => 1) (fun _ _ => (0, 0, 1))).1.getD 0 0,
     (mainSim 2 1 0 1 1 (fun _ _ _ => 1) (fun _ _ => (0, 0, 1))).2.getD 0 0) =
      sweep_point 1 1 0 1 (1 / (linspace 0.01 3 2 0 * T_critico 1))
        ((fun _ _ _ => 1) 0) ((fun _ _ => (0, 0, 1)) 0) ∧
    linspace 0.01 3 2 (2 - 1) = 3 :=
  ⟨(main_sweep 2 1 0 1 1 (fun _ _ _ => 1) (fun _ _ => (0, 0, 1)) (by norm_num)).1,
   (main_sweep 2 1 0 1 1 (fun _ _ _ => 1) (fun _ _ => (0, 0, 1)) (by norm_num)).2.2.1
     0 (by norm_num),
   (main_sweep 2 1 0 1 1 (fun _ _ _ => 1) (fun _ _ => (0, 0, 1)) (by norm_num)).2.2.2.2⟩

end Ising
